import Mathlib

/-!
Shallow embedding of the TradeSim order matching engine (src/main.cpp).

Modelling conventions:
* Prices are `double` in the source; every price the program handles is a
  multiple of 0.01 in a small range, and the engine only ever *compares*
  prices (never adds them), so the order on the stored doubles coincides
  with the order on the exact decimal values.  We model a price as an `Int`
  number of hundredths (cents): `100.00` becomes `10000`.
* Quantities, ids and timestamps are C++ `int`/`long`; we model them as `Int`
  (the program never comes near overflow: quantities only decrease toward 0).
* `std::priority_queue` is modelled as a `List Order` kept in insertion
  order, together with `pqPop`, which removes the element that
  `priority_queue::top()` would return: the comparator-maximal element
  (leftmost among comparator-ties, refining the heap's unspecified choice
  among fully tied elements).
* The trade log is modelled as the list of emitted `Trade` records, in
  emission order; `processOrder`'s observable outcome (the "Order rejected"
  message vs. normal processing) is an explicit `ProcessOutcome`.
-/

/-- `class Order` of src/main.cpp: id, side tag ("buy"/"sell"), price
(in hundredths), working quantity, submission timestamp. -/
structure Order where
  orderID : Int
  type : String
  price : Int
  quantity : Int
  timestamp : Int
deriving Repr, DecidableEq

/-- One emitted trade record: the arguments of `TradeLogger::logTrade`. -/
structure Trade where
  buyOrderID : Int
  sellOrderID : Int
  price : Int
  quantity : Int
deriving Repr, DecidableEq

/-- `BuyOrderComparator` of src/main.cpp: `a` has *lower* priority than `b`
(max-heap by price, then earlier timestamp wins at equal price). -/
def BuyOrderComparator (a b : Order) : Bool :=
  if a.price ≠ b.price then a.price < b.price else a.timestamp > b.timestamp

/-- `SellOrderComparator` of src/main.cpp: `a` has *lower* priority than `b`
(min-heap by price, then earlier timestamp wins at equal price). -/
def SellOrderComparator (a b : Order) : Bool :=
  if a.price ≠ b.price then a.price > b.price else a.timestamp > b.timestamp

/-- `priority_queue::top()`+`pop()`: removes and returns the comparator-maximal
element (the leftmost one among full comparator-ties); `none` on the empty
queue.  `comp a b = true` means `a` has lower priority than `b`. -/
def pqPop (comp : Order → Order → Bool) : List Order → Option (Order × List Order)
  | [] => none
  | o :: rest =>
    match pqPop comp rest with
    | none => some (o, [])
    | some (t, rest2) => if comp o t then some (t, o :: rest2) else some (o, rest)

/-- `priority_queue::top()` without removal (`peekTop…Order`). -/
def pqTop (comp : Order → Order → Bool) (l : List Order) : Option Order :=
  (pqPop comp l).map Prod.fst

/-- `class OrderBook`: the two priority queues. -/
structure OrderBook where
  buyOrders : List Order
  sellOrders : List Order
deriving Repr, DecidableEq

/-- The book a fresh `MatchingEngine` starts with. -/
def emptyBook : OrderBook := ⟨[], []⟩

/-- Body of one iteration of the matching loop of `processBuyOrder`
(src/main.cpp lines 272-288) after the top sell order has been popped:
decrement the resting order by the traded quantity and re-insert it if it
still has quantity. -/
def matchBuyStep (topSell : Order) (tradeQuantity : Int) (rest : List Order) : List Order :=
  if topSell.quantity - tradeQuantity > 0 then
    rest ++ [{ topSell with quantity := topSell.quantity - tradeQuantity }]
  else rest

/-- Mirror image for `processSellOrder` (src/main.cpp lines 308-324). -/
def matchSellStep (topBuy : Order) (tradeQuantity : Int) (rest : List Order) : List Order :=
  if topBuy.quantity - tradeQuantity > 0 then
    rest ++ [{ topBuy with quantity := topBuy.quantity - tradeQuantity }]
  else rest

theorem pqPop_eq_none (comp : Order → Order → Bool) (l : List Order) :
    pqPop comp l = none ↔ l = [] := by
  cases l with
  | nil => simp [pqPop]
  | cons o rest =>
    simp only [pqPop]
    cases pqPop comp rest with
    | none => simp
    | some p => cases p with | mk t r => simp only; split <;> simp

theorem pqPop_length (comp : Order → Order → Bool) :
    ∀ (l : List Order) (t : Order) (r : List Order),
      pqPop comp l = some (t, r) → l.length = r.length + 1 := by
  intro l
  induction l with
  | nil => intro t r h; simp [pqPop] at h
  | cons o rest ih =>
    intro t r h
    simp only [pqPop] at h
    cases hrec : pqPop comp rest with
    | none =>
      rw [hrec] at h
      have hnil : rest = [] := (pqPop_eq_none comp rest).mp hrec
      simp only [Option.some.injEq, Prod.mk.injEq] at h
      simp [hnil, ← h.2]
    | some p =>
      cases p with
      | mk t2 rest2 =>
        rw [hrec] at h
        have hlen := ih t2 rest2 hrec
        split at h
        next heq => exact absurd heq (by simp)
        next t3 rest3 heq =>
          simp only [Option.some.injEq, Prod.mk.injEq] at heq
          obtain ⟨he1, he2⟩ := heq
          subst he1; subst he2
          split at h <;> simp only [Option.some.injEq, Prod.mk.injEq] at h <;>
            simp [← h.2, hlen]

theorem matchBuyStep_cases (topSell : Order) (t : Int) (rest : List Order) :
    ((matchBuyStep topSell t rest).length = rest.length + 1 ∧ 0 < topSell.quantity - t) ∨
      (matchBuyStep topSell t rest).length = rest.length := by
  unfold matchBuyStep
  split <;> simp_all

theorem matchSellStep_cases (topBuy : Order) (t : Int) (rest : List Order) :
    ((matchSellStep topBuy t rest).length = rest.length + 1 ∧ 0 < topBuy.quantity - t) ∨
      (matchSellStep topBuy t rest).length = rest.length := by
  unfold matchSellStep
  split <;> simp_all

/-- The `while` loop of `MatchingEngine::processBuyOrder` (src/main.cpp
lines 267-293), acting on the ask-side queue.  Returns the incoming order's
remaining quantity, the new ask side, and the trades emitted in order. -/
def matchBuyLoop (buyOrder : Order) (sells : List Order) :
    Int × List Order × List Trade :=
  if hq : buyOrder.quantity > 0 then
    match hp : pqPop SellOrderComparator sells with
    | none => (buyOrder.quantity, sells, [])
    | some (topSell, rest) =>
      if buyOrder.price ≥ topSell.price then
        let tradeQuantity := min buyOrder.quantity topSell.quantity
        let tr : Trade :=
          ⟨buyOrder.orderID, topSell.orderID, topSell.price, tradeQuantity⟩
        let res := matchBuyLoop { buyOrder with quantity := buyOrder.quantity - tradeQuantity }
          (matchBuyStep topSell tradeQuantity rest)
        (res.1, res.2.1, tr :: res.2.2)
      else (buyOrder.quantity, sells, [])
  else (buyOrder.quantity, sells, [])
termination_by (sells.length, buyOrder.quantity.toNat)
decreasing_by
  have hlen := pqPop_length SellOrderComparator sells topSell rest hp
  rcases matchBuyStep_cases topSell (min buyOrder.quantity topSell.quantity) rest with
    ⟨h1, h2⟩ | h1
  · rw [h1, hlen]
    apply Prod.Lex.right
    show (buyOrder.quantity - min buyOrder.quantity topSell.quantity).toNat <
      buyOrder.quantity.toNat
    rcases le_total buyOrder.quantity topSell.quantity with hmn | hmn
    · rw [min_eq_left hmn] at h2 ⊢; omega
    · rw [min_eq_right hmn] at h2 ⊢; omega
  · apply Prod.Lex.left
    omega

/-- The `while` loop of `MatchingEngine::processSellOrder` (src/main.cpp
lines 303-329), acting on the bid-side queue. -/
def matchSellLoop (sellOrder : Order) (buys : List Order) :
    Int × List Order × List Trade :=
  if hq : sellOrder.quantity > 0 then
    match hp : pqPop BuyOrderComparator buys with
    | none => (sellOrder.quantity, buys, [])
    | some (topBuy, rest) =>
      if sellOrder.price ≤ topBuy.price then
        let tradeQuantity := min sellOrder.quantity topBuy.quantity
        let tr : Trade :=
          ⟨topBuy.orderID, sellOrder.orderID, topBuy.price, tradeQuantity⟩
        let res := matchSellLoop { sellOrder with quantity := sellOrder.quantity - tradeQuantity }
          (matchSellStep topBuy tradeQuantity rest)
        (res.1, res.2.1, tr :: res.2.2)
      else (sellOrder.quantity, buys, [])
  else (sellOrder.quantity, buys, [])
termination_by (buys.length, sellOrder.quantity.toNat)
decreasing_by
  have hlen := pqPop_length BuyOrderComparator buys topBuy rest hp
  rcases matchSellStep_cases topBuy (min sellOrder.quantity topBuy.quantity) rest with
    ⟨h1, h2⟩ | h1
  · rw [h1, hlen]
    apply Prod.Lex.right
    show (sellOrder.quantity - min sellOrder.quantity topBuy.quantity).toNat <
      sellOrder.quantity.toNat
    rcases le_total sellOrder.quantity topBuy.quantity with hmn | hmn
    · rw [min_eq_left hmn] at h2 ⊢; omega
    · rw [min_eq_right hmn] at h2 ⊢; omega
  · apply Prod.Lex.left
    omega

/-- `MatchingEngine::processBuyOrder`: run the matching loop against the ask
side, then rest any remaining quantity on the bid side. -/
def processBuyOrder (buyOrder : Order) (book : OrderBook) : OrderBook × List Trade :=
  let res := matchBuyLoop buyOrder book.sellOrders
  let book2 : OrderBook := { book with sellOrders := res.2.1 }
  if res.1 > 0 then
    ({ book2 with buyOrders := book2.buyOrders ++ [{ buyOrder with quantity := res.1 }] },
      res.2.2)
  else (book2, res.2.2)

/-- `MatchingEngine::processSellOrder`. -/
def processSellOrder (sellOrder : Order) (book : OrderBook) : OrderBook × List Trade :=
  let res := matchSellLoop sellOrder book.buyOrders
  let book2 : OrderBook := { book with buyOrders := res.2.1 }
  if res.1 > 0 then
    ({ book2 with sellOrders := book2.sellOrders ++ [{ sellOrder with quantity := res.1 }] },
      res.2.2)
  else (book2, res.2.2)

/-- Observable outcome of `MatchingEngine::processOrder`: `rejected` is the
early-return branch that prints "Order rejected: Quantity … exceeds maximum
allowed (1000)"; `processed` is every other path. -/
inductive ProcessOutcome where
  | rejected
  | processed
deriving Repr, DecidableEq

/-- `MatchingEngine::processOrder` (src/main.cpp lines 232-248): risk check
(quantity > 1000 rejected), then dispatch — `type == "buy"` goes to the buy
path, every other type string goes to the sell path. -/
def processOrder (newOrder : Order) (book : OrderBook) :
    OrderBook × List Trade × ProcessOutcome :=
  if newOrder.quantity > 1000 then (book, [], ProcessOutcome.rejected)
  else if newOrder.type = "buy" then
    let r := processBuyOrder newOrder book
    (r.1, r.2, ProcessOutcome.processed)
  else
    let r := processSellOrder newOrder book
    (r.1, r.2, ProcessOutcome.processed)

/-- Outcome of the "Place new order" menu handler in `main`
(src/main.cpp lines 364-397): the three validation error messages, or
hand-off to the engine with the engine's outcome. -/
inductive SubmitOutcome where
  | invalidType
  | invalidPrice
  | invalidQuantity
  | engine (r : ProcessOutcome)
deriving Repr, DecidableEq

/-- The "Place new order" menu handler of `main` (src/main.cpp lines
364-397): validates side, price and quantity before constructing an `Order`
and calling `processOrder`. -/
def placeNewOrder (ty : String) (price quantity orderID ts : Int) (book : OrderBook) :
    OrderBook × List Trade × SubmitOutcome :=
  if ty ≠ "buy" ∧ ty ≠ "sell" then (book, [], SubmitOutcome.invalidType)
  else if price ≤ 0 then (book, [], SubmitOutcome.invalidPrice)
  else if quantity ≤ 0 then (book, [], SubmitOutcome.invalidQuantity)
  else
    let r := processOrder ⟨orderID, ty, price, quantity, ts⟩ book
    (r.1, r.2.1, SubmitOutcome.engine r.2.2)

/-- Serial processing of a submission sequence by one engine, collecting all
emitted trades in order. -/
def runOrders : List Order → OrderBook → OrderBook × List Trade
  | [], book => (book, [])
  | o :: os, book =>
    let r := processOrder o book
    let rest := runOrders os r.1
    (rest.1, r.2.1 ++ rest.2)

/-- Total resting quantity of a queue. -/
def totalQty (l : List Order) : Int := (l.map Order.quantity).sum

/-- Total executed quantity of a trade list. -/
def totalTradeQty (l : List Trade) : Int := (l.map Trade.quantity).sum

/-- The submissions of side `side` admitted by the engine's risk check. -/
def admittedOn (side : String) (orders : List Order) : List Order :=
  orders.filter (fun o => o.type == side && decide (o.quantity ≤ 1000))

/-- The book is uncrossed: both sides non-empty implies best bid price
strictly below best ask price (best = what `peekTop…Order` returns). -/
def bookUncrossed (book : OrderBook) : Bool :=
  match pqTop BuyOrderComparator book.buyOrders, pqTop SellOrderComparator book.sellOrders with
  | some bb, some ba => bb.price < ba.price
  | _, _ => true

/-! ### Comparator facts -/

theorem buyComp_asymm (a b : Order) (h : BuyOrderComparator a b = true) :
    BuyOrderComparator b a = false := by
  simp only [BuyOrderComparator] at *
  split_ifs at * <;> simp_all <;> omega

theorem sellComp_asymm (a b : Order) (h : SellOrderComparator a b = true) :
    SellOrderComparator b a = false := by
  simp only [SellOrderComparator] at *
  split_ifs at * <;> simp_all <;> omega

theorem buyComp_negtrans (a b c : Order) (h : BuyOrderComparator a c = true) :
    BuyOrderComparator a b = true ∨ BuyOrderComparator b c = true := by
  simp only [BuyOrderComparator] at *
  split_ifs at * <;> simp_all <;> omega

theorem sellComp_negtrans (a b c : Order) (h : SellOrderComparator a c = true) :
    SellOrderComparator a b = true ∨ SellOrderComparator b c = true := by
  simp only [SellOrderComparator] at *
  split_ifs at * <;> simp_all <;> omega

theorem sellComp_false_price (t x : Order) (h : SellOrderComparator t x = false) :
    t.price ≤ x.price := by
  simp only [SellOrderComparator] at h
  split_ifs at h <;> simp_all

theorem sellComp_false_ts (t x : Order) (h : SellOrderComparator t x = false)
    (hp : x.price = t.price) : t.timestamp ≤ x.timestamp := by
  simp only [SellOrderComparator] at h
  split_ifs at h <;> simp_all

theorem buyComp_false_price (t x : Order) (h : BuyOrderComparator t x = false) :
    x.price ≤ t.price := by
  simp only [BuyOrderComparator] at h
  split_ifs at h <;> simp_all

theorem buyComp_false_ts (t x : Order) (h : BuyOrderComparator t x = false)
    (hp : x.price = t.price) : t.timestamp ≤ x.timestamp := by
  simp only [BuyOrderComparator] at h
  split_ifs at h <;> simp_all

/-! ### Queue-extraction facts -/

/-- Case analysis for `pqPop` on a non-empty queue. -/
theorem pqPop_cons (comp : Order → Order → Bool) (o : Order) (rest : List Order) :
    (pqPop comp (o :: rest) = some (o, []) ∧ rest = []) ∨
    ∃ t2 rest2, pqPop comp rest = some (t2, rest2) ∧
      ((comp o t2 = true ∧ pqPop comp (o :: rest) = some (t2, o :: rest2)) ∨
       (comp o t2 = false ∧ pqPop comp (o :: rest) = some (o, rest))) := by
  cases hrec : pqPop comp rest with
  | none =>
    exact Or.inl ⟨by simp [pqPop, hrec], (pqPop_eq_none comp rest).mp hrec⟩
  | some p =>
    cases p with
    | mk t2 rest2 =>
      refine Or.inr ⟨t2, rest2, rfl, ?_⟩
      cases hc : comp o t2
      · exact Or.inr ⟨rfl, by simp [pqPop, hrec, hc]⟩
      · exact Or.inl ⟨rfl, by simp [pqPop, hrec, hc]⟩

/-- Popping removes exactly one occurrence of the returned element. -/
theorem pqPop_perm (comp : Order → Order → Bool) :
    ∀ (l : List Order) (t : Order) (r : List Order),
      pqPop comp l = some (t, r) → l.Perm (t :: r) := by
  intro l
  induction l with
  | nil => intro t r h; simp [pqPop] at h
  | cons o rest ih =>
    intro t r h
    rcases pqPop_cons comp o rest with ⟨he, hnil⟩ | ⟨t2, rest2, hrec, ⟨_, he⟩ | ⟨_, he⟩⟩
    · rw [he] at h
      simp only [Option.some.injEq, Prod.mk.injEq] at h
      rw [← h.1, ← h.2, hnil]
    · rw [he] at h
      simp only [Option.some.injEq, Prod.mk.injEq] at h
      rw [← h.1, ← h.2]
      exact ((ih t2 rest2 hrec).cons o).trans (List.Perm.swap t2 o rest2)
    · rw [he] at h
      simp only [Option.some.injEq, Prod.mk.injEq] at h
      rw [← h.1, ← h.2]

theorem pqPop_mem_top (comp : Order → Order → Bool) (l : List Order) (t : Order)
    (r : List Order) (h : pqPop comp l = some (t, r)) : t ∈ l :=
  (pqPop_perm comp l t r h).mem_iff.mpr (List.mem_cons_self t r)

theorem pqPop_mem_rest (comp : Order → Order → Bool) (l : List Order) (t : Order)
    (r : List Order) (h : pqPop comp l = some (t, r)) {x : Order} (hx : x ∈ r) : x ∈ l :=
  (pqPop_perm comp l t r h).mem_iff.mpr (List.mem_cons_of_mem t hx)

theorem pqPop_totalQty (comp : Order → Order → Bool) (l : List Order) (t : Order)
    (r : List Order) (h : pqPop comp l = some (t, r)) :
    totalQty l = t.quantity + totalQty r := by
  have hperm := (pqPop_perm comp l t r h).map Order.quantity
  have hsum := hperm.sum_eq
  simpa [totalQty] using hsum

/-- The popped element is comparator-maximal: no element of the queue has
strictly higher priority. -/
theorem pqPop_max (comp : Order → Order → Bool)
    (hasym : ∀ a b, comp a b = true → comp b a = false)
    (hneg : ∀ a b c, comp a c = true → comp a b = true ∨ comp b c = true) :
    ∀ (l : List Order) (t : Order) (r : List Order),
      pqPop comp l = some (t, r) → ∀ x ∈ l, comp t x = false := by
  have hirr : ∀ a, comp a a = false := by
    intro a
    cases hc : comp a a with
    | false => rfl
    | true => have h2 := hasym a a hc; simp [hc] at h2
  intro l
  induction l with
  | nil => intro t r h; simp [pqPop] at h
  | cons o rest ih =>
    intro t r h x hx
    rcases pqPop_cons comp o rest with ⟨he, hnil⟩ | ⟨t2, rest2, hrec, ⟨hc, he⟩ | ⟨hc, he⟩⟩
    · rw [he] at h
      simp only [Option.some.injEq, Prod.mk.injEq] at h
      rw [← h.1]
      subst hnil
      rcases List.mem_singleton.mp hx with rfl
      exact hirr x
    · rw [he] at h
      simp only [Option.some.injEq, Prod.mk.injEq] at h
      rw [← h.1]
      rcases List.mem_cons.mp hx with rfl | hx2
      · exact hasym x t2 hc
      · exact ih t2 rest2 hrec x hx2
    · rw [he] at h
      simp only [Option.some.injEq, Prod.mk.injEq] at h
      rw [← h.1]
      rcases List.mem_cons.mp hx with rfl | hx2
      · exact hirr x
      · cases hcx : comp o x with
        | false => rfl
        | true =>
          rcases hneg o t2 x hcx with h1 | h1
          · rw [hc] at h1; exact absurd h1 (by simp)
          · rw [ih t2 rest2 hrec x hx2] at h1; exact absurd h1 (by simp)

/-- The top of the ask queue has the minimum price of the queue. -/
theorem pqPop_sell_price (l : List Order) (t : Order) (r : List Order)
    (h : pqPop SellOrderComparator l = some (t, r)) : ∀ x ∈ l, t.price ≤ x.price :=
  fun x hx =>
    sellComp_false_price t x (pqPop_max SellOrderComparator sellComp_asymm
      sellComp_negtrans l t r h x hx)

/-- Among equal-priced asks, the top of the ask queue has the earliest
timestamp. -/
theorem pqPop_sell_ts (l : List Order) (t : Order) (r : List Order)
    (h : pqPop SellOrderComparator l = some (t, r)) :
    ∀ x ∈ l, x.price = t.price → t.timestamp ≤ x.timestamp :=
  fun x hx hp =>
    sellComp_false_ts t x (pqPop_max SellOrderComparator sellComp_asymm
      sellComp_negtrans l t r h x hx) hp

/-- The top of the bid queue has the maximum price of the queue. -/
theorem pqPop_buy_price (l : List Order) (t : Order) (r : List Order)
    (h : pqPop BuyOrderComparator l = some (t, r)) : ∀ x ∈ l, x.price ≤ t.price :=
  fun x hx =>
    buyComp_false_price t x (pqPop_max BuyOrderComparator buyComp_asymm
      buyComp_negtrans l t r h x hx)

/-- Among equal-priced bids, the top of the bid queue has the earliest
timestamp. -/
theorem pqPop_buy_ts (l : List Order) (t : Order) (r : List Order)
    (h : pqPop BuyOrderComparator l = some (t, r)) :
    ∀ x ∈ l, x.price = t.price → t.timestamp ≤ x.timestamp :=
  fun x hx hp =>
    buyComp_false_ts t x (pqPop_max BuyOrderComparator buyComp_asymm
      buyComp_negtrans l t r h x hx) hp

/-! ### Unfolding equations for the matching loops -/

theorem matchBuyLoop_done (buy : Order) (sells : List Order) (hq : ¬buy.quantity > 0) :
    matchBuyLoop buy sells = (buy.quantity, sells, []) := by
  unfold matchBuyLoop
  simp [hq]

theorem matchBuyLoop_empty (buy : Order) (sells : List Order) (hq : buy.quantity > 0)
    (hp : pqPop SellOrderComparator sells = none) :
    matchBuyLoop buy sells = (buy.quantity, sells, []) := by
  conv_lhs => rw [matchBuyLoop]
  rw [dif_pos hq]
  split
  · rfl
  · next heq => rw [hp] at heq; cases heq

theorem matchBuyLoop_nomatch (buy : Order) (sells : List Order) (topSell : Order)
    (rest : List Order) (hq : buy.quantity > 0)
    (hp : pqPop SellOrderComparator sells = some (topSell, rest))
    (hmar : ¬buy.price ≥ topSell.price) :
    matchBuyLoop buy sells = (buy.quantity, sells, []) := by
  conv_lhs => rw [matchBuyLoop]
  rw [dif_pos hq]
  split
  · next heq => rw [hp] at heq
  · next t2 r2 heq =>
    rw [hp] at heq
    injection heq with heq2
    cases heq2
    rw [if_neg hmar]

theorem matchBuyLoop_step (buy : Order) (sells : List Order) (topSell : Order)
    (rest : List Order) (hq : buy.quantity > 0)
    (hp : pqPop SellOrderComparator sells = some (topSell, rest))
    (hmar : buy.price ≥ topSell.price) :
    matchBuyLoop buy sells =
      ((matchBuyLoop { buy with quantity := buy.quantity - min buy.quantity topSell.quantity }
          (matchBuyStep topSell (min buy.quantity topSell.quantity) rest)).1,
       (matchBuyLoop { buy with quantity := buy.quantity - min buy.quantity topSell.quantity }
          (matchBuyStep topSell (min buy.quantity topSell.quantity) rest)).2.1,
       (⟨buy.orderID, topSell.orderID, topSell.price, min buy.quantity topSell.quantity⟩ : Trade) ::
         (matchBuyLoop { buy with quantity := buy.quantity - min buy.quantity topSell.quantity }
            (matchBuyStep topSell (min buy.quantity topSell.quantity) rest)).2.2) := by
  conv_lhs => rw [matchBuyLoop]
  rw [dif_pos hq]
  split
  · next heq => rw [hp] at heq; simp at heq
  · next t2 r2 heq =>
    rw [hp] at heq
    injection heq with heq2
    cases heq2
    rw [if_pos hmar]

theorem matchSellLoop_done (sell : Order) (buys : List Order) (hq : ¬sell.quantity > 0) :
    matchSellLoop sell buys = (sell.quantity, buys, []) := by
  unfold matchSellLoop
  simp [hq]

theorem matchSellLoop_empty (sell : Order) (buys : List Order) (hq : sell.quantity > 0)
    (hp : pqPop BuyOrderComparator buys = none) :
    matchSellLoop sell buys = (sell.quantity, buys, []) := by
  conv_lhs => rw [matchSellLoop]
  rw [dif_pos hq]
  split
  · rfl
  · next heq => rw [hp] at heq; cases heq

theorem matchSellLoop_nomatch (sell : Order) (buys : List Order) (topBuy : Order)
    (rest : List Order) (hq : sell.quantity > 0)
    (hp : pqPop BuyOrderComparator buys = some (topBuy, rest))
    (hmar : ¬sell.price ≤ topBuy.price) :
    matchSellLoop sell buys = (sell.quantity, buys, []) := by
  conv_lhs => rw [matchSellLoop]
  rw [dif_pos hq]
  split
  · next heq => rw [hp] at heq
  · next t2 r2 heq =>
    rw [hp] at heq
    injection heq with heq2
    cases heq2
    rw [if_neg hmar]

theorem matchSellLoop_step (sell : Order) (buys : List Order) (topBuy : Order)
    (rest : List Order) (hq : sell.quantity > 0)
    (hp : pqPop BuyOrderComparator buys = some (topBuy, rest))
    (hmar : sell.price ≤ topBuy.price) :
    matchSellLoop sell buys =
      ((matchSellLoop { sell with quantity := sell.quantity - min sell.quantity topBuy.quantity }
          (matchSellStep topBuy (min sell.quantity topBuy.quantity) rest)).1,
       (matchSellLoop { sell with quantity := sell.quantity - min sell.quantity topBuy.quantity }
          (matchSellStep topBuy (min sell.quantity topBuy.quantity) rest)).2.1,
       (⟨topBuy.orderID, sell.orderID, topBuy.price, min sell.quantity topBuy.quantity⟩ : Trade) ::
         (matchSellLoop { sell with quantity := sell.quantity - min sell.quantity topBuy.quantity }
            (matchSellStep topBuy (min sell.quantity topBuy.quantity) rest)).2.2) := by
  conv_lhs => rw [matchSellLoop]
  rw [dif_pos hq]
  split
  · next heq => rw [hp] at heq; simp at heq
  · next t2 r2 heq =>
    rw [hp] at heq
    injection heq with heq2
    cases heq2
    rw [if_pos hmar]

/-! ### Facts about a single loop iteration -/

theorem matchBuyStep_mem (topSell : Order) (tq : Int) (rest : List Order) {x : Order}
    (hx : x ∈ matchBuyStep topSell tq rest) :
    x ∈ rest ∨ (x.orderID = topSell.orderID ∧ x.price = topSell.price ∧
      x.timestamp = topSell.timestamp) := by
  unfold matchBuyStep at hx
  split at hx
  · rcases List.mem_append.mp hx with h | h
    · exact Or.inl h
    · rcases List.mem_singleton.mp h with rfl
      exact Or.inr ⟨rfl, rfl, rfl⟩
  · exact Or.inl hx

theorem matchSellStep_mem (topBuy : Order) (tq : Int) (rest : List Order) {x : Order}
    (hx : x ∈ matchSellStep topBuy tq rest) :
    x ∈ rest ∨ (x.orderID = topBuy.orderID ∧ x.price = topBuy.price ∧
      x.timestamp = topBuy.timestamp) := by
  unfold matchSellStep at hx
  split at hx
  · rcases List.mem_append.mp hx with h | h
    · exact Or.inl h
    · rcases List.mem_singleton.mp h with rfl
      exact Or.inr ⟨rfl, rfl, rfl⟩
  · exact Or.inl hx

theorem matchBuyStep_pos (topSell : Order) (tq : Int) (rest : List Order)
    (h : ∀ y ∈ rest, 0 < y.quantity) :
    ∀ y ∈ matchBuyStep topSell tq rest, 0 < y.quantity := by
  intro y hy
  unfold matchBuyStep at hy
  split at hy
  · rcases List.mem_append.mp hy with h2 | h2
    · exact h y h2
    · rcases List.mem_singleton.mp h2 with rfl
      assumption
  · exact h y hy

theorem matchSellStep_pos (topBuy : Order) (tq : Int) (rest : List Order)
    (h : ∀ y ∈ rest, 0 < y.quantity) :
    ∀ y ∈ matchSellStep topBuy tq rest, 0 < y.quantity := by
  intro y hy
  unfold matchSellStep at hy
  split at hy
  · rcases List.mem_append.mp hy with h2 | h2
    · exact h y h2
    · rcases List.mem_singleton.mp h2 with rfl
      assumption
  · exact h y hy

theorem matchBuyStep_total (topSell : Order) (tq : Int) (rest : List Order)
    (h : tq ≤ topSell.quantity) :
    totalQty (matchBuyStep topSell tq rest) = totalQty rest + (topSell.quantity - tq) := by
  unfold matchBuyStep
  split
  · simp [totalQty]
  · have h2 : topSell.quantity - tq = 0 := by omega
    simp [h2]

theorem matchSellStep_total (topBuy : Order) (tq : Int) (rest : List Order)
    (h : tq ≤ topBuy.quantity) :
    totalQty (matchSellStep topBuy tq rest) = totalQty rest + (topBuy.quantity - tq) := by
  unfold matchSellStep
  split
  · simp [totalQty]
  · have h2 : topBuy.quantity - tq = 0 := by omega
    simp [h2]

/-! ### Facts about the whole matching loop (buy side) -/

/-- If the buy loop leaves a positive residual, every ask still resting is
priced strictly above the incoming buy's limit. -/
theorem matchBuy_exit (buy : Order) (sells : List Order) :
    0 < (matchBuyLoop buy sells).1 →
      ∀ x ∈ (matchBuyLoop buy sells).2.1, buy.price < x.price := by
  induction buy, sells using matchBuyLoop.induct with
  | case1 buy sells hq hp =>
    intro h x hx
    rw [matchBuyLoop_empty buy sells hq hp] at hx
    rw [(pqPop_eq_none SellOrderComparator sells).mp hp] at hx
    simp at hx
  | case2 buy sells hq topSell rest hp hmar tq ih =>
    intro h x hx
    rw [matchBuyLoop_step buy sells topSell rest hq hp hmar] at h hx
    exact ih h x hx
  | case3 buy sells hq topSell rest hp hmar =>
    intro h x hx
    rw [matchBuyLoop_nomatch buy sells topSell rest hq hp hmar] at hx
    have h1 : topSell.price ≤ x.price := pqPop_sell_price sells topSell rest hp x hx
    omega
  | case4 buy sells hq =>
    intro h x hx
    rw [matchBuyLoop_done buy sells hq] at h
    exact absurd h (by simpa using hq)

/-- Every order resting on the ask side after the buy loop has the id, price
and timestamp of an order that was resting there before. -/
theorem matchBuy_trace (buy : Order) (sells : List Order) :
    ∀ x ∈ (matchBuyLoop buy sells).2.1, ∃ y ∈ sells,
      x.orderID = y.orderID ∧ x.price = y.price ∧ x.timestamp = y.timestamp := by
  induction buy, sells using matchBuyLoop.induct with
  | case1 buy sells hq hp =>
    intro x hx
    rw [matchBuyLoop_empty buy sells hq hp] at hx
    exact ⟨x, hx, rfl, rfl, rfl⟩
  | case2 buy sells hq topSell rest hp hmar tq ih =>
    intro x hx
    rw [matchBuyLoop_step buy sells topSell rest hq hp hmar] at hx
    obtain ⟨y, hy, hfields⟩ := ih x hx
    rcases matchBuyStep_mem topSell tq rest hy with h2 | ⟨h2, h3, h4⟩
    · exact ⟨y, pqPop_mem_rest SellOrderComparator sells topSell rest hp h2, hfields⟩
    · refine ⟨topSell, pqPop_mem_top SellOrderComparator sells topSell rest hp, ?_⟩
      obtain ⟨f1, f2, f3⟩ := hfields
      exact ⟨f1.trans h2, f2.trans h3, f3.trans h4⟩
  | case3 buy sells hq topSell rest hp hmar =>
    intro x hx
    rw [matchBuyLoop_nomatch buy sells topSell rest hq hp hmar] at hx
    exact ⟨x, hx, rfl, rfl, rfl⟩
  | case4 buy sells hq =>
    intro x hx
    rw [matchBuyLoop_done buy sells hq] at hx
    exact ⟨x, hx, rfl, rfl, rfl⟩

/-- The buy loop preserves positivity of resting quantities on the ask side. -/
theorem matchBuy_pos (buy : Order) (sells : List Order) :
    (∀ y ∈ sells, 0 < y.quantity) →
      ∀ x ∈ (matchBuyLoop buy sells).2.1, 0 < x.quantity := by
  induction buy, sells using matchBuyLoop.induct with
  | case1 buy sells hq hp =>
    intro hs x hx
    rw [matchBuyLoop_empty buy sells hq hp] at hx
    exact hs x hx
  | case2 buy sells hq topSell rest hp hmar tq ih =>
    intro hs x hx
    rw [matchBuyLoop_step buy sells topSell rest hq hp hmar] at hx
    refine ih ?_ x hx
    exact matchBuyStep_pos topSell tq rest
      (fun y hy => hs y (pqPop_mem_rest SellOrderComparator sells topSell rest hp hy))
  | case3 buy sells hq topSell rest hp hmar =>
    intro hs x hx
    rw [matchBuyLoop_nomatch buy sells topSell rest hq hp hmar] at hx
    exact hs x hx
  | case4 buy sells hq =>
    intro hs x hx
    rw [matchBuyLoop_done buy sells hq] at hx
    exact hs x hx

/-- Quantity bookkeeping of the buy loop: the incoming quantity splits into
residual plus traded, and the ask side shrinks by exactly the traded
quantity. -/
theorem matchBuy_totals (buy : Order) (sells : List Order) :
    buy.quantity = (matchBuyLoop buy sells).1 + totalTradeQty (matchBuyLoop buy sells).2.2 ∧
    totalQty sells =
      totalQty (matchBuyLoop buy sells).2.1 + totalTradeQty (matchBuyLoop buy sells).2.2 := by
  induction buy, sells using matchBuyLoop.induct with
  | case1 buy sells hq hp =>
    rw [matchBuyLoop_empty buy sells hq hp]
    simp [totalTradeQty]
  | case2 buy sells hq topSell rest hp hmar tq ih =>
    rw [matchBuyLoop_step buy sells topSell rest hq hp hmar]
    have htq : tq = min buy.quantity topSell.quantity := rfl
    rw [← htq]
    obtain ⟨ih1, ih2⟩ := ih
    have hpq := pqPop_totalQty SellOrderComparator sells topSell rest hp
    have hle : tq ≤ topSell.quantity := by rw [htq]; exact min_le_right _ _
    have hstep := matchBuyStep_total topSell tq rest hle
    simp only [totalTradeQty, List.map_cons, List.sum_cons] at ih1 ih2 ⊢
    constructor <;> omega
  | case3 buy sells hq topSell rest hp hmar =>
    rw [matchBuyLoop_nomatch buy sells topSell rest hq hp hmar]
    simp [totalTradeQty]
  | case4 buy sells hq =>
    rw [matchBuyLoop_done buy sells hq]
    simp [totalTradeQty]

/-- The residual quantity returned by the buy loop is non-negative whenever
the incoming quantity is. -/
theorem matchBuy_res_nonneg (buy : Order) (sells : List Order) :
    0 ≤ buy.quantity → 0 ≤ (matchBuyLoop buy sells).1 := by
  induction buy, sells using matchBuyLoop.induct with
  | case1 buy sells hq hp =>
    intro h
    rw [matchBuyLoop_empty buy sells hq hp]
    exact h
  | case2 buy sells hq topSell rest hp hmar tq ih =>
    intro h
    rw [matchBuyLoop_step buy sells topSell rest hq hp hmar]
    refine ih ?_
    show 0 ≤ buy.quantity - tq
    have := min_le_left buy.quantity topSell.quantity
    omega
  | case3 buy sells hq topSell rest hp hmar =>
    intro h
    rw [matchBuyLoop_nomatch buy sells topSell rest hq hp hmar]
    exact h
  | case4 buy sells hq =>
    intro h
    rw [matchBuyLoop_done buy sells hq]
    exact h

/-- Every trade emitted by the buy loop is priced at or below the incoming
buy's limit price. -/
theorem matchBuy_aggr (buy : Order) (sells : List Order) :
    ∀ t ∈ (matchBuyLoop buy sells).2.2, t.price ≤ buy.price := by
  induction buy, sells using matchBuyLoop.induct with
  | case1 buy sells hq hp =>
    intro t ht
    rw [matchBuyLoop_empty buy sells hq hp] at ht
    simp at ht
  | case2 buy sells hq topSell rest hp hmar tq ih =>
    intro t ht
    rw [matchBuyLoop_step buy sells topSell rest hq hp hmar] at ht
    rcases List.mem_cons.mp ht with rfl | ht2
    · exact hmar
    · exact ih t ht2
  | case3 buy sells hq topSell rest hp hmar =>
    intro t ht
    rw [matchBuyLoop_nomatch buy sells topSell rest hq hp hmar] at ht
    simp at ht
  | case4 buy sells hq =>
    intro t ht
    rw [matchBuyLoop_done buy sells hq] at ht
    simp at ht

/-- Every trade emitted by the buy loop names the incoming buy as buyer, and
names a sell order that was resting on the ask side, at that resting order's
price. -/
theorem matchBuy_resting (buy : Order) (sells : List Order) :
    ∀ t ∈ (matchBuyLoop buy sells).2.2, t.buyOrderID = buy.orderID ∧
      ∃ y ∈ sells, t.sellOrderID = y.orderID ∧ t.price = y.price := by
  induction buy, sells using matchBuyLoop.induct with
  | case1 buy sells hq hp =>
    intro t ht
    rw [matchBuyLoop_empty buy sells hq hp] at ht
    simp at ht
  | case2 buy sells hq topSell rest hp hmar tq ih =>
    intro t ht
    rw [matchBuyLoop_step buy sells topSell rest hq hp hmar] at ht
    rcases List.mem_cons.mp ht with rfl | ht2
    · exact ⟨rfl, topSell, pqPop_mem_top SellOrderComparator sells topSell rest hp, rfl, rfl⟩
    · obtain ⟨hid, y, hy, hfields⟩ := ih t ht2
      refine ⟨hid, ?_⟩
      rcases matchBuyStep_mem topSell tq rest hy with h2 | ⟨h2, h3, _⟩
      · exact ⟨y, pqPop_mem_rest SellOrderComparator sells topSell rest hp h2, hfields⟩
      · exact ⟨topSell, pqPop_mem_top SellOrderComparator sells topSell rest hp,
          hfields.1.trans h2, hfields.2.trans h3⟩
  | case3 buy sells hq topSell rest hp hmar =>
    intro t ht
    rw [matchBuyLoop_nomatch buy sells topSell rest hq hp hmar] at ht
    simp at ht
  | case4 buy sells hq =>
    intro t ht
    rw [matchBuyLoop_done buy sells hq] at ht
    simp at ht

/-! ### Facts about the whole matching loop (sell side) -/

/-- If the sell loop leaves a positive residual, every bid still resting is
priced strictly below the incoming sell's limit. -/
theorem matchSell_exit (sell : Order) (buys : List Order) :
    0 < (matchSellLoop sell buys).1 →
      ∀ x ∈ (matchSellLoop sell buys).2.1, x.price < sell.price := by
  induction sell, buys using matchSellLoop.induct with
  | case1 sell buys hq hp =>
    intro h x hx
    rw [matchSellLoop_empty sell buys hq hp] at hx
    rw [(pqPop_eq_none BuyOrderComparator buys).mp hp] at hx
    simp at hx
  | case2 sell buys hq topBuy rest hp hmar tq ih =>
    intro h x hx
    rw [matchSellLoop_step sell buys topBuy rest hq hp hmar] at h hx
    exact ih h x hx
  | case3 sell buys hq topBuy rest hp hmar =>
    intro h x hx
    rw [matchSellLoop_nomatch sell buys topBuy rest hq hp hmar] at hx
    have h1 : x.price ≤ topBuy.price := pqPop_buy_price buys topBuy rest hp x hx
    omega
  | case4 sell buys hq =>
    intro h x hx
    rw [matchSellLoop_done sell buys hq] at h
    exact absurd h (by simpa using hq)

/-- Every order resting on the bid side after the sell loop has the id, price
and timestamp of an order that was resting there before. -/
theorem matchSell_trace (sell : Order) (buys : List Order) :
    ∀ x ∈ (matchSellLoop sell buys).2.1, ∃ y ∈ buys,
      x.orderID = y.orderID ∧ x.price = y.price ∧ x.timestamp = y.timestamp := by
  induction sell, buys using matchSellLoop.induct with
  | case1 sell buys hq hp =>
    intro x hx
    rw [matchSellLoop_empty sell buys hq hp] at hx
    exact ⟨x, hx, rfl, rfl, rfl⟩
  | case2 sell buys hq topBuy rest hp hmar tq ih =>
    intro x hx
    rw [matchSellLoop_step sell buys topBuy rest hq hp hmar] at hx
    obtain ⟨y, hy, hfields⟩ := ih x hx
    rcases matchSellStep_mem topBuy tq rest hy with h2 | ⟨h2, h3, h4⟩
    · exact ⟨y, pqPop_mem_rest BuyOrderComparator buys topBuy rest hp h2, hfields⟩
    · refine ⟨topBuy, pqPop_mem_top BuyOrderComparator buys topBuy rest hp, ?_⟩
      obtain ⟨f1, f2, f3⟩ := hfields
      exact ⟨f1.trans h2, f2.trans h3, f3.trans h4⟩
  | case3 sell buys hq topBuy rest hp hmar =>
    intro x hx
    rw [matchSellLoop_nomatch sell buys topBuy rest hq hp hmar] at hx
    exact ⟨x, hx, rfl, rfl, rfl⟩
  | case4 sell buys hq =>
    intro x hx
    rw [matchSellLoop_done sell buys hq] at hx
    exact ⟨x, hx, rfl, rfl, rfl⟩

/-- The sell loop preserves positivity of resting quantities on the bid side. -/
theorem matchSell_pos (sell : Order) (buys : List Order) :
    (∀ y ∈ buys, 0 < y.quantity) →
      ∀ x ∈ (matchSellLoop sell buys).2.1, 0 < x.quantity := by
  induction sell, buys using matchSellLoop.induct with
  | case1 sell buys hq hp =>
    intro hs x hx
    rw [matchSellLoop_empty sell buys hq hp] at hx
    exact hs x hx
  | case2 sell buys hq topBuy rest hp hmar tq ih =>
    intro hs x hx
    rw [matchSellLoop_step sell buys topBuy rest hq hp hmar] at hx
    refine ih ?_ x hx
    exact matchSellStep_pos topBuy tq rest
      (fun y hy => hs y (pqPop_mem_rest BuyOrderComparator buys topBuy rest hp hy))
  | case3 sell buys hq topBuy rest hp hmar =>
    intro hs x hx
    rw [matchSellLoop_nomatch sell buys topBuy rest hq hp hmar] at hx
    exact hs x hx
  | case4 sell buys hq =>
    intro hs x hx
    rw [matchSellLoop_done sell buys hq] at hx
    exact hs x hx

/-- Quantity bookkeeping of the sell loop. -/
theorem matchSell_totals (sell : Order) (buys : List Order) :
    sell.quantity = (matchSellLoop sell buys).1 + totalTradeQty (matchSellLoop sell buys).2.2 ∧
    totalQty buys =
      totalQty (matchSellLoop sell buys).2.1 + totalTradeQty (matchSellLoop sell buys).2.2 := by
  induction sell, buys using matchSellLoop.induct with
  | case1 sell buys hq hp =>
    rw [matchSellLoop_empty sell buys hq hp]
    simp [totalTradeQty]
  | case2 sell buys hq topBuy rest hp hmar tq ih =>
    rw [matchSellLoop_step sell buys topBuy rest hq hp hmar]
    have htq : tq = min sell.quantity topBuy.quantity := rfl
    rw [← htq]
    obtain ⟨ih1, ih2⟩ := ih
    have hpq := pqPop_totalQty BuyOrderComparator buys topBuy rest hp
    have hle : tq ≤ topBuy.quantity := by rw [htq]; exact min_le_right _ _
    have hstep := matchSellStep_total topBuy tq rest hle
    simp only [totalTradeQty, List.map_cons, List.sum_cons] at ih1 ih2 ⊢
    constructor <;> omega
  | case3 sell buys hq topBuy rest hp hmar =>
    rw [matchSellLoop_nomatch sell buys topBuy rest hq hp hmar]
    simp [totalTradeQty]
  | case4 sell buys hq =>
    rw [matchSellLoop_done sell buys hq]
    simp [totalTradeQty]

/-- The residual quantity returned by the sell loop is non-negative whenever
the incoming quantity is. -/
theorem matchSell_res_nonneg (sell : Order) (buys : List Order) :
    0 ≤ sell.quantity → 0 ≤ (matchSellLoop sell buys).1 := by
  induction sell, buys using matchSellLoop.induct with
  | case1 sell buys hq hp =>
    intro h
    rw [matchSellLoop_empty sell buys hq hp]
    exact h
  | case2 sell buys hq topBuy rest hp hmar tq ih =>
    intro h
    rw [matchSellLoop_step sell buys topBuy rest hq hp hmar]
    refine ih ?_
    show 0 ≤ sell.quantity - tq
    have := min_le_left sell.quantity topBuy.quantity
    omega
  | case3 sell buys hq topBuy rest hp hmar =>
    intro h
    rw [matchSellLoop_nomatch sell buys topBuy rest hq hp hmar]
    exact h
  | case4 sell buys hq =>
    intro h
    rw [matchSellLoop_done sell buys hq]
    exact h

/-- Every trade emitted by the sell loop is priced at or above the incoming
sell's limit price. -/
theorem matchSell_aggr (sell : Order) (buys : List Order) :
    ∀ t ∈ (matchSellLoop sell buys).2.2, sell.price ≤ t.price := by
  induction sell, buys using matchSellLoop.induct with
  | case1 sell buys hq hp =>
    intro t ht
    rw [matchSellLoop_empty sell buys hq hp] at ht
    simp at ht
  | case2 sell buys hq topBuy rest hp hmar tq ih =>
    intro t ht
    rw [matchSellLoop_step sell buys topBuy rest hq hp hmar] at ht
    rcases List.mem_cons.mp ht with rfl | ht2
    · exact hmar
    · exact ih t ht2
  | case3 sell buys hq topBuy rest hp hmar =>
    intro t ht
    rw [matchSellLoop_nomatch sell buys topBuy rest hq hp hmar] at ht
    simp at ht
  | case4 sell buys hq =>
    intro t ht
    rw [matchSellLoop_done sell buys hq] at ht
    simp at ht

/-- Every trade emitted by the sell loop names the incoming sell as seller,
and names a buy order that was resting on the bid side, at that resting
order's price. -/
theorem matchSell_resting (sell : Order) (buys : List Order) :
    ∀ t ∈ (matchSellLoop sell buys).2.2, t.sellOrderID = sell.orderID ∧
      ∃ y ∈ buys, t.buyOrderID = y.orderID ∧ t.price = y.price := by
  induction sell, buys using matchSellLoop.induct with
  | case1 sell buys hq hp =>
    intro t ht
    rw [matchSellLoop_empty sell buys hq hp] at ht
    simp at ht
  | case2 sell buys hq topBuy rest hp hmar tq ih =>
    intro t ht
    rw [matchSellLoop_step sell buys topBuy rest hq hp hmar] at ht
    rcases List.mem_cons.mp ht with rfl | ht2
    · exact ⟨rfl, topBuy, pqPop_mem_top BuyOrderComparator buys topBuy rest hp, rfl, rfl⟩
    · obtain ⟨hid, y, hy, hfields⟩ := ih t ht2
      refine ⟨hid, ?_⟩
      rcases matchSellStep_mem topBuy tq rest hy with h2 | ⟨h2, h3, _⟩
      · exact ⟨y, pqPop_mem_rest BuyOrderComparator buys topBuy rest hp h2, hfields⟩
      · exact ⟨topBuy, pqPop_mem_top BuyOrderComparator buys topBuy rest hp,
          hfields.1.trans h2, hfields.2.trans h3⟩
  | case3 sell buys hq topBuy rest hp hmar =>
    intro t ht
    rw [matchSellLoop_nomatch sell buys topBuy rest hq hp hmar] at ht
    simp at ht
  | case4 sell buys hq =>
    intro t ht
    rw [matchSellLoop_done sell buys hq] at ht
    simp at ht

/-! ### Engine-level structural facts -/

theorem processBuyOrder_sells (o : Order) (book : OrderBook) :
    (processBuyOrder o book).1.sellOrders = (matchBuyLoop o book.sellOrders).2.1 := by
  simp only [processBuyOrder]
  split <;> rfl

theorem processBuyOrder_buys (o : Order) (book : OrderBook) :
    (processBuyOrder o book).1.buyOrders = book.buyOrders ++
      (if (matchBuyLoop o book.sellOrders).1 > 0 then
        [{ o with quantity := (matchBuyLoop o book.sellOrders).1 }] else []) := by
  simp only [processBuyOrder]
  split
  · next h => simp [h]
  · next h => simp [h]

theorem processBuyOrder_trades (o : Order) (book : OrderBook) :
    (processBuyOrder o book).2 = (matchBuyLoop o book.sellOrders).2.2 := by
  simp only [processBuyOrder]
  split <;> rfl

theorem processSellOrder_buys (o : Order) (book : OrderBook) :
    (processSellOrder o book).1.buyOrders = (matchSellLoop o book.buyOrders).2.1 := by
  simp only [processSellOrder]
  split <;> rfl

theorem processSellOrder_sells (o : Order) (book : OrderBook) :
    (processSellOrder o book).1.sellOrders = book.sellOrders ++
      (if (matchSellLoop o book.buyOrders).1 > 0 then
        [{ o with quantity := (matchSellLoop o book.buyOrders).1 }] else []) := by
  simp only [processSellOrder]
  split
  · next h => simp [h]
  · next h => simp [h]

theorem processSellOrder_trades (o : Order) (book : OrderBook) :
    (processSellOrder o book).2 = (matchSellLoop o book.buyOrders).2.2 := by
  simp only [processSellOrder]
  split <;> rfl

/-- Exhaustive case analysis of `processOrder`. -/
theorem processOrder_cases (o : Order) (book : OrderBook) :
    (o.quantity > 1000 ∧ processOrder o book = (book, [], ProcessOutcome.rejected)) ∨
    (¬o.quantity > 1000 ∧ o.type = "buy" ∧
      processOrder o book =
        ((processBuyOrder o book).1, (processBuyOrder o book).2, ProcessOutcome.processed)) ∨
    (¬o.quantity > 1000 ∧ ¬o.type = "buy" ∧
      processOrder o book =
        ((processSellOrder o book).1, (processSellOrder o book).2, ProcessOutcome.processed)) := by
  unfold processOrder
  by_cases h1 : o.quantity > 1000
  · exact Or.inl ⟨h1, by rw [if_pos h1]⟩
  · by_cases h2 : o.type = "buy"
    · exact Or.inr (Or.inl ⟨h1, h2, by rw [if_neg h1, if_pos h2]⟩)
    · exact Or.inr (Or.inr ⟨h1, h2, by rw [if_neg h1, if_neg h2]⟩)

/-- Both sides of the book strictly separated in price: every resting bid is
priced strictly below every resting ask. -/
def PricesCross (bids asks : List Order) : Prop :=
  ∀ b ∈ bids, ∀ a ∈ asks, b.price < a.price

theorem processBuy_cross (o : Order) (book : OrderBook)
    (h : PricesCross book.buyOrders book.sellOrders) :
    PricesCross (processBuyOrder o book).1.buyOrders (processBuyOrder o book).1.sellOrders := by
  intro b hb a ha
  rw [processBuyOrder_buys] at hb
  rw [processBuyOrder_sells] at ha
  obtain ⟨y, hy, _, hyp, _⟩ := matchBuy_trace o book.sellOrders a ha
  rcases List.mem_append.mp hb with hb1 | hb2
  · have := h b hb1 y hy
    omega
  · by_cases hres : (matchBuyLoop o book.sellOrders).1 > 0
    · rw [if_pos hres] at hb2
      rcases List.mem_singleton.mp hb2 with rfl
      exact matchBuy_exit o book.sellOrders hres a ha
    · rw [if_neg hres] at hb2
      simp at hb2

theorem processSell_cross (o : Order) (book : OrderBook)
    (h : PricesCross book.buyOrders book.sellOrders) :
    PricesCross (processSellOrder o book).1.buyOrders (processSellOrder o book).1.sellOrders := by
  intro b hb a ha
  rw [processSellOrder_buys] at hb
  rw [processSellOrder_sells] at ha
  obtain ⟨y, hy, _, hyp, _⟩ := matchSell_trace o book.buyOrders b hb
  rcases List.mem_append.mp ha with ha1 | ha2
  · have := h y hy a ha1
    omega
  · by_cases hres : (matchSellLoop o book.buyOrders).1 > 0
    · rw [if_pos hres] at ha2
      rcases List.mem_singleton.mp ha2 with rfl
      exact matchSell_exit o book.buyOrders hres b hb
    · rw [if_neg hres] at ha2
      simp at ha2

theorem processOrder_cross (o : Order) (book : OrderBook)
    (h : PricesCross book.buyOrders book.sellOrders) :
    PricesCross (processOrder o book).1.buyOrders (processOrder o book).1.sellOrders := by
  rcases processOrder_cases o book with ⟨_, he⟩ | ⟨_, _, he⟩ | ⟨_, _, he⟩ <;> rw [he]
  · exact h
  · exact processBuy_cross o book h
  · exact processSell_cross o book h

theorem runOrders_cross (orders : List Order) :
    ∀ book : OrderBook, PricesCross book.buyOrders book.sellOrders →
      PricesCross (runOrders orders book).1.buyOrders (runOrders orders book).1.sellOrders := by
  induction orders with
  | nil => intro book h; exact h
  | cons o os ih =>
    intro book h
    exact ih (processOrder o book).1 (processOrder_cross o book h)

/-! ### Positivity and conservation -/

theorem totalQty_append (l1 l2 : List Order) :
    totalQty (l1 ++ l2) = totalQty l1 + totalQty l2 := by
  simp [totalQty]

theorem totalTradeQty_append (l1 l2 : List Trade) :
    totalTradeQty (l1 ++ l2) = totalTradeQty l1 + totalTradeQty l2 := by
  simp [totalTradeQty]

theorem processBuy_pos (o : Order) (book : OrderBook)
    (hb : ∀ x ∈ book.buyOrders, 0 < x.quantity)
    (hs : ∀ x ∈ book.sellOrders, 0 < x.quantity) :
    (∀ x ∈ (processBuyOrder o book).1.buyOrders, 0 < x.quantity) ∧
    (∀ x ∈ (processBuyOrder o book).1.sellOrders, 0 < x.quantity) := by
  constructor
  · intro x hx
    rw [processBuyOrder_buys] at hx
    rcases List.mem_append.mp hx with h1 | h2
    · exact hb x h1
    · by_cases hres : (matchBuyLoop o book.sellOrders).1 > 0
      · rw [if_pos hres] at h2
        rcases List.mem_singleton.mp h2 with rfl
        exact hres
      · rw [if_neg hres] at h2
        simp at h2
  · intro x hx
    rw [processBuyOrder_sells] at hx
    exact matchBuy_pos o book.sellOrders hs x hx

theorem processSell_pos (o : Order) (book : OrderBook)
    (hb : ∀ x ∈ book.buyOrders, 0 < x.quantity)
    (hs : ∀ x ∈ book.sellOrders, 0 < x.quantity) :
    (∀ x ∈ (processSellOrder o book).1.buyOrders, 0 < x.quantity) ∧
    (∀ x ∈ (processSellOrder o book).1.sellOrders, 0 < x.quantity) := by
  constructor
  · intro x hx
    rw [processSellOrder_buys] at hx
    exact matchSell_pos o book.buyOrders hb x hx
  · intro x hx
    rw [processSellOrder_sells] at hx
    rcases List.mem_append.mp hx with h1 | h2
    · exact hs x h1
    · by_cases hres : (matchSellLoop o book.buyOrders).1 > 0
      · rw [if_pos hres] at h2
        rcases List.mem_singleton.mp h2 with rfl
        exact hres
      · rw [if_neg hres] at h2
        simp at h2

theorem processOrder_pos (o : Order) (book : OrderBook)
    (hb : ∀ x ∈ book.buyOrders, 0 < x.quantity)
    (hs : ∀ x ∈ book.sellOrders, 0 < x.quantity) :
    (∀ x ∈ (processOrder o book).1.buyOrders, 0 < x.quantity) ∧
    (∀ x ∈ (processOrder o book).1.sellOrders, 0 < x.quantity) := by
  rcases processOrder_cases o book with ⟨_, he⟩ | ⟨_, _, he⟩ | ⟨_, _, he⟩ <;> rw [he]
  · exact ⟨hb, hs⟩
  · exact processBuy_pos o book hb hs
  · exact processSell_pos o book hb hs

theorem processOrder_totals (o : Order) (book : OrderBook)
    (hside : o.type = "buy" ∨ o.type = "sell") (hq : 0 < o.quantity) :
    totalQty (processOrder o book).1.buyOrders + totalTradeQty (processOrder o book).2.1
      = totalQty book.buyOrders + totalQty (admittedOn "buy" [o]) ∧
    totalQty (processOrder o book).1.sellOrders + totalTradeQty (processOrder o book).2.1
      = totalQty book.sellOrders + totalQty (admittedOn "sell" [o]) := by
  have hsingle : ∀ (q : Int), totalQty [{ o with quantity := q }] = q := by
    intro q; simp [totalQty]
  have hnil : totalQty ([] : List Order) = 0 := by simp [totalQty]
  rcases processOrder_cases o book with ⟨h1, he⟩ | ⟨h1, hty, he⟩ | ⟨h1, hty, he⟩
  · rw [he]
    have h2 : ¬(o.quantity ≤ 1000) := by omega
    simp [admittedOn, h2, totalQty, totalTradeQty]
  · have hq1000 : o.quantity ≤ 1000 := by omega
    have hab : admittedOn "buy" [o] = [o] := by simp [admittedOn, hty, hq1000]
    have has : admittedOn "sell" [o] = [] := by simp [admittedOn, hty]
    rw [he]
    show totalQty (processBuyOrder o book).1.buyOrders + totalTradeQty (processBuyOrder o book).2
        = totalQty book.buyOrders + totalQty (admittedOn "buy" [o]) ∧
      totalQty (processBuyOrder o book).1.sellOrders + totalTradeQty (processBuyOrder o book).2
        = totalQty book.sellOrders + totalQty (admittedOn "sell" [o])
    rw [hab, has, hnil]
    obtain ⟨ht1, ht2⟩ := matchBuy_totals o book.sellOrders
    have hnn := matchBuy_res_nonneg o book.sellOrders (le_of_lt hq)
    rw [processBuyOrder_trades, processBuyOrder_buys, processBuyOrder_sells, totalQty_append]
    constructor
    · by_cases hres : (matchBuyLoop o book.sellOrders).1 > 0
      · rw [if_pos hres, hsingle]
        have hone : totalQty [o] = o.quantity := by simp [totalQty]
        rw [hone]
        omega
      · rw [if_neg hres, hnil]
        have hone : totalQty [o] = o.quantity := by simp [totalQty]
        rw [hone]
        omega
    · omega
  · rcases hside with hside | hside
    · exact absurd hside hty
    have hq1000 : o.quantity ≤ 1000 := by omega
    have hab : admittedOn "buy" [o] = [] := by simp [admittedOn, hside]
    have has : admittedOn "sell" [o] = [o] := by simp [admittedOn, hside, hq1000]
    rw [he]
    show totalQty (processSellOrder o book).1.buyOrders + totalTradeQty (processSellOrder o book).2
        = totalQty book.buyOrders + totalQty (admittedOn "buy" [o]) ∧
      totalQty (processSellOrder o book).1.sellOrders + totalTradeQty (processSellOrder o book).2
        = totalQty book.sellOrders + totalQty (admittedOn "sell" [o])
    rw [hab, has, hnil]
    obtain ⟨ht1, ht2⟩ := matchSell_totals o book.buyOrders
    have hnn := matchSell_res_nonneg o book.buyOrders (le_of_lt hq)
    rw [processSellOrder_trades, processSellOrder_buys, processSellOrder_sells, totalQty_append]
    constructor
    · omega
    · by_cases hres : (matchSellLoop o book.buyOrders).1 > 0
      · rw [if_pos hres, hsingle]
        have hone : totalQty [o] = o.quantity := by simp [totalQty]
        rw [hone]
        omega
      · rw [if_neg hres, hnil]
        have hone : totalQty [o] = o.quantity := by simp [totalQty]
        rw [hone]
        omega

theorem admittedOn_cons_total (s : String) (o : Order) (os : List Order) :
    totalQty (admittedOn s (o :: os)) =
      totalQty (admittedOn s [o]) + totalQty (admittedOn s os) := by
  cases hc : (o.type == s && decide (o.quantity ≤ 1000)) <;>
    simp [admittedOn, List.filter_cons, hc, totalQty]

theorem runOrders_totals (orders : List Order) :
    ∀ book : OrderBook,
      (∀ o ∈ orders, (o.type = "buy" ∨ o.type = "sell") ∧ 0 < o.quantity) →
      (∀ x ∈ book.buyOrders, 0 < x.quantity) →
      (∀ x ∈ book.sellOrders, 0 < x.quantity) →
      totalQty (runOrders orders book).1.buyOrders + totalTradeQty (runOrders orders book).2
        = totalQty book.buyOrders + totalQty (admittedOn "buy" orders) ∧
      totalQty (runOrders orders book).1.sellOrders + totalTradeQty (runOrders orders book).2
        = totalQty book.sellOrders + totalQty (admittedOn "sell" orders) := by
  induction orders with
  | nil =>
    intro book hv hb hs
    simp [runOrders, totalTradeQty, admittedOn, totalQty]
  | cons o os ih =>
    intro book hv hb hs
    have hmem := hv o (List.mem_cons_self o os)
    have hcall := processOrder_totals o book hmem.1 hmem.2
    have hpos := processOrder_pos o book hb hs
    have hrec := ih (processOrder o book).1
      (fun x hx => hv x (List.mem_cons_of_mem o hx)) hpos.1 hpos.2
    have hadb := admittedOn_cons_total "buy" o os
    have hads := admittedOn_cons_total "sell" o os
    show totalQty (runOrders os (processOrder o book).1).1.buyOrders +
        totalTradeQty ((processOrder o book).2.1 ++ (runOrders os (processOrder o book).1).2)
        = totalQty book.buyOrders + totalQty (admittedOn "buy" (o :: os)) ∧
      totalQty (runOrders os (processOrder o book).1).1.sellOrders +
        totalTradeQty ((processOrder o book).2.1 ++ (runOrders os (processOrder o book).1).2)
        = totalQty book.sellOrders + totalQty (admittedOn "sell" (o :: os))
    rw [totalTradeQty_append]
    constructor <;> omega

theorem pqTop_eq_some (comp : Order → Order → Bool) (l : List Order) (t : Order)
    (h : pqTop comp l = some t) : ∃ r, pqPop comp l = some (t, r) := by
  unfold pqTop at h
  cases hp : pqPop comp l with
  | none => rw [hp] at h; simp at h
  | some p =>
    cases p with
    | mk t2 r =>
      rw [hp] at h
      simp at h
      exact ⟨r, by rw [h]⟩

theorem bookUncrossed_of_cross (book : OrderBook)
    (h : PricesCross book.buyOrders book.sellOrders) : bookUncrossed book = true := by
  unfold bookUncrossed
  split
  · next bb ba hbb hba =>
    obtain ⟨rb, hpb⟩ := pqTop_eq_some BuyOrderComparator book.buyOrders bb hbb
    obtain ⟨ra, hpa⟩ := pqTop_eq_some SellOrderComparator book.sellOrders ba hba
    have h1 := pqPop_mem_top BuyOrderComparator book.buyOrders bb rb hpb
    have h2 := pqPop_mem_top SellOrderComparator book.sellOrders ba ra hpa
    simpa using h bb h1 ba h2
  · rfl

theorem totalQty_nonneg (l : List Order) (h : ∀ x ∈ l, 0 < x.quantity) :
    0 ≤ totalQty l :=
  List.sum_nonneg (fun q hq => by
    obtain ⟨x, hx, rfl⟩ := List.mem_map.mp hq
    exact le_of_lt (h x hx))

theorem processBuy_nonpos (o : Order) (book : OrderBook) (h2 : ¬o.quantity > 0) :
    processBuyOrder o book = (book, []) := by
  unfold processBuyOrder
  rw [matchBuyLoop_done o book.sellOrders h2]
  simp [h2]

theorem processSell_nonpos (o : Order) (book : OrderBook) (h2 : ¬o.quantity > 0) :
    processSellOrder o book = (book, []) := by
  unfold processSellOrder
  rw [matchSellLoop_done o book.buyOrders h2]
  simp [h2]

/-! ### Claim theorems -/

/-- C1: For every sequence of submissions processed serially from the empty
book, after each `processOrder` call returns, either the bid side is empty,
or the ask side is empty, or the price of the best bid is strictly less than
the price of the best ask.  (Stated for all prefixes at once: `orders`
ranges over every submission sequence, so the final state of every prefix is
covered; the result is proved for arbitrary submissions, hence in particular
for valid ones.) -/
theorem c1_uncrossed_at_quiescence (orders : List Order) :
    bookUncrossed (runOrders orders emptyBook).1 = true :=
  bookUncrossed_of_cross _
    (runOrders_cross orders emptyBook
      (fun b hb => absurd hb (List.not_mem_nil b)))

/-- C2: Every trade emitted by the matching loop executes at the resting
order's price: a trade of the buy loop names the incoming buy as buyer and a
resting sell order (by id) at that resting order's price; symmetrically for
the sell loop. -/
theorem c2_resting_price_execution :
    (∀ (buy : Order) (sells : List Order), ∀ t ∈ (matchBuyLoop buy sells).2.2,
      t.buyOrderID = buy.orderID ∧
        ∃ y ∈ sells, t.sellOrderID = y.orderID ∧ t.price = y.price) ∧
    (∀ (sell : Order) (buys : List Order), ∀ t ∈ (matchSellLoop sell buys).2.2,
      t.sellOrderID = sell.orderID ∧
        ∃ y ∈ buys, t.buyOrderID = y.orderID ∧ t.price = y.price) :=
  ⟨matchBuy_resting, matchSell_resting⟩

theorem c2_witness :
    ((⟨2, 1, 9900, 100⟩ : Trade).buyOrderID = (⟨2, "buy", 10100, 100, 2⟩ : Order).orderID ∧
      ∃ y ∈ [(⟨1, "sell", 9900, 100, 1⟩ : Order)],
        (⟨2, 1, 9900, 100⟩ : Trade).sellOrderID = y.orderID ∧
        (⟨2, 1, 9900, 100⟩ : Trade).price = y.price) ∧
    ((⟨3, 4, 10000, 50⟩ : Trade).sellOrderID = (⟨4, "sell", 9900, 50, 2⟩ : Order).orderID ∧
      ∃ y ∈ [(⟨3, "buy", 10000, 50, 1⟩ : Order)],
        (⟨3, 4, 10000, 50⟩ : Trade).buyOrderID = y.orderID ∧
        (⟨3, 4, 10000, 50⟩ : Trade).price = y.price) := by
  constructor
  · exact c2_resting_price_execution.1 ⟨2, "buy", 10100, 100, 2⟩ [⟨1, "sell", 9900, 100, 1⟩]
      ⟨2, 1, 9900, 100⟩ (by simp [matchBuyLoop, pqPop, matchBuyStep])
  · exact c2_resting_price_execution.2 ⟨4, "sell", 9900, 50, 2⟩ [⟨3, "buy", 10000, 50, 1⟩]
      ⟨3, 4, 10000, 50⟩ (by simp [matchSellLoop, pqPop, matchSellStep])

/-- C3: An incoming order whose quantity exceeds 1000 is rejected by
`processOrder`: the book is unchanged, no trade is emitted, and the
`rejected` outcome is produced. -/
theorem c3_risk_rejection (o : Order) (book : OrderBook) (h : o.quantity > 1000) :
    processOrder o book = (book, [], ProcessOutcome.rejected) := by
  unfold processOrder
  rw [if_pos h]

theorem c3_witness :
    (⟨1, "buy", 10000, 1500, 1⟩ : Order).quantity > 1000 ∧
    processOrder ⟨1, "buy", 10000, 1500, 1⟩ emptyBook = (emptyBook, [], ProcessOutcome.rejected) :=
  ⟨by decide, c3_risk_rejection ⟨1, "buy", 10000, 1500, 1⟩ emptyBook (by decide)⟩

/-- C4 counterexample to the claim as stated: the engine itself does not
validate the side tag.  An order whose side is neither "buy" nor "sell"
(and which passes the risk check) is handed to the sell path by
`processOrder`, enters the ask book, and the outcome is `processed`, not a
rejection. -/
theorem c4_counterexample :
    (processOrder ⟨1, "limit", 10000, 10, 1⟩ emptyBook).1.sellOrders
        = [⟨1, "limit", 10000, 10, 1⟩] ∧
    (processOrder ⟨1, "limit", 10000, 10, 1⟩ emptyBook).2.2 = ProcessOutcome.processed := by
  constructor <;> simp [processOrder, processSellOrder, matchSellLoop, pqPop, emptyBook]

/-- C4 (amended): Validation of side, price and quantity is performed by the
interactive front-end (`main`'s "Place new order" handler), not by the
engine: a submission with side not in {"buy","sell"}, price ≤ 0 or
quantity ≤ 0 is turned away before an `Order` is constructed — the book is
unchanged, no trade is emitted, and the caller is informed with the
corresponding typed error outcome. -/
theorem c4_amended_validation (ty : String) (price quantity orderID ts : Int)
    (book : OrderBook)
    (h : (ty ≠ "buy" ∧ ty ≠ "sell") ∨ price ≤ 0 ∨ quantity ≤ 0) :
    (placeNewOrder ty price quantity orderID ts book).1 = book ∧
    (placeNewOrder ty price quantity orderID ts book).2.1 = [] ∧
    ((placeNewOrder ty price quantity orderID ts book).2.2 = SubmitOutcome.invalidType ∨
     (placeNewOrder ty price quantity orderID ts book).2.2 = SubmitOutcome.invalidPrice ∨
     (placeNewOrder ty price quantity orderID ts book).2.2 = SubmitOutcome.invalidQuantity) := by
  unfold placeNewOrder
  by_cases h1 : ty ≠ "buy" ∧ ty ≠ "sell"
  · rw [if_pos h1]
    exact ⟨rfl, rfl, Or.inl rfl⟩
  · rw [if_neg h1]
    by_cases h2 : price ≤ 0
    · rw [if_pos h2]
      exact ⟨rfl, rfl, Or.inr (Or.inl rfl)⟩
    · rw [if_neg h2]
      by_cases h3 : quantity ≤ 0
      · rw [if_pos h3]
        exact ⟨rfl, rfl, Or.inr (Or.inr rfl)⟩
      · exfalso
        rcases h with h | h | h
        exacts [h1 h, h2 h, h3 h]

theorem c4_witness :
    (((("limit" : String) ≠ "buy" ∧ ("limit" : String) ≠ "sell") ∨
        (10000 : Int) ≤ 0 ∨ (10 : Int) ≤ 0) ∧
      (placeNewOrder "limit" 10000 10 1 1 emptyBook).1 = emptyBook ∧
      (placeNewOrder "limit" 10000 10 1 1 emptyBook).2.1 = [] ∧
      ((placeNewOrder "limit" 10000 10 1 1 emptyBook).2.2 = SubmitOutcome.invalidType ∨
       (placeNewOrder "limit" 10000 10 1 1 emptyBook).2.2 = SubmitOutcome.invalidPrice ∨
       (placeNewOrder "limit" 10000 10 1 1 emptyBook).2.2 = SubmitOutcome.invalidQuantity)) :=
  ⟨Or.inl (by decide),
    c4_amended_validation "limit" 10000 10 1 1 emptyBook (Or.inl (by decide))⟩

/-- C5: The aggressor's limit is respected: every trade of the buy loop is
priced at or below the incoming buy's limit; every trade of the sell loop is
priced at or above the incoming sell's limit. -/
theorem c5_aggressor_limit :
    (∀ (buy : Order) (sells : List Order),
      ∀ t ∈ (matchBuyLoop buy sells).2.2, t.price ≤ buy.price) ∧
    (∀ (sell : Order) (buys : List Order),
      ∀ t ∈ (matchSellLoop sell buys).2.2, sell.price ≤ t.price) :=
  ⟨matchBuy_aggr, matchSell_aggr⟩

theorem c5_witness :
    ((⟨2, 1, 9900, 100⟩ : Trade).price ≤ (⟨2, "buy", 10100, 100, 2⟩ : Order).price) ∧
    ((⟨4, "sell", 9900, 50, 2⟩ : Order).price ≤ (⟨3, 4, 10000, 50⟩ : Trade).price) := by
  constructor
  · exact c5_aggressor_limit.1 ⟨2, "buy", 10100, 100, 2⟩ [⟨1, "sell", 9900, 100, 1⟩]
      ⟨2, 1, 9900, 100⟩ (by simp [matchBuyLoop, pqPop, matchBuyStep])
  · exact c5_aggressor_limit.2 ⟨4, "sell", 9900, 50, 2⟩ [⟨3, "buy", 10000, 50, 1⟩]
      ⟨3, 4, 10000, 50⟩ (by simp [matchSellLoop, pqPop, matchSellStep])

/-- C6: Time priority at equal price.  (i)/(ii): whenever the matching loop
pops the top of a queue, no other resting order at the same price has a
strictly earlier timestamp — so among equal-priced resting orders the one
with the earliest timestamp is matched first.  (iii)/(iv): every order
resting after the loop (in particular a partially filled, re-inserted
residual) keeps the id, price and timestamp of an order resting before, so
re-insertion preserves the original timestamp and hence time priority. -/
theorem c6_time_priority :
    (∀ (l : List Order) (t : Order) (r : List Order),
      pqPop SellOrderComparator l = some (t, r) →
      ∀ x ∈ l, x.price = t.price → t.timestamp ≤ x.timestamp) ∧
    (∀ (l : List Order) (t : Order) (r : List Order),
      pqPop BuyOrderComparator l = some (t, r) →
      ∀ x ∈ l, x.price = t.price → t.timestamp ≤ x.timestamp) ∧
    (∀ (buy : Order) (sells : List Order), ∀ x ∈ (matchBuyLoop buy sells).2.1,
      ∃ y ∈ sells, x.orderID = y.orderID ∧ x.price = y.price ∧ x.timestamp = y.timestamp) ∧
    (∀ (sell : Order) (buys : List Order), ∀ x ∈ (matchSellLoop sell buys).2.1,
      ∃ y ∈ buys, x.orderID = y.orderID ∧ x.price = y.price ∧ x.timestamp = y.timestamp) :=
  ⟨pqPop_sell_ts, pqPop_buy_ts, matchBuy_trace, matchSell_trace⟩

theorem c6_witness :
    ((⟨2, "sell", 10000, 10, 3⟩ : Order).timestamp ≤
        (⟨1, "sell", 10000, 10, 5⟩ : Order).timestamp) ∧
    ((⟨2, "buy", 10000, 10, 3⟩ : Order).timestamp ≤
        (⟨1, "buy", 10000, 10, 5⟩ : Order).timestamp) ∧
    (∃ y ∈ [(⟨1, "sell", 10000, 10, 5⟩ : Order)],
      (⟨1, "sell", 10000, 6, 5⟩ : Order).orderID = y.orderID ∧
      (⟨1, "sell", 10000, 6, 5⟩ : Order).price = y.price ∧
      (⟨1, "sell", 10000, 6, 5⟩ : Order).timestamp = y.timestamp) ∧
    (∃ y ∈ [(⟨1, "buy", 10000, 10, 5⟩ : Order)],
      (⟨1, "buy", 10000, 6, 5⟩ : Order).orderID = y.orderID ∧
      (⟨1, "buy", 10000, 6, 5⟩ : Order).price = y.price ∧
      (⟨1, "buy", 10000, 6, 5⟩ : Order).timestamp = y.timestamp) := by
  refine ⟨?_, ?_, ?_, ?_⟩
  · exact c6_time_priority.1 [⟨1, "sell", 10000, 10, 5⟩, ⟨2, "sell", 10000, 10, 3⟩]
      ⟨2, "sell", 10000, 10, 3⟩ [⟨1, "sell", 10000, 10, 5⟩] (by decide)
      ⟨1, "sell", 10000, 10, 5⟩ (by decide) (by decide)
  · exact c6_time_priority.2.1 [⟨1, "buy", 10000, 10, 5⟩, ⟨2, "buy", 10000, 10, 3⟩]
      ⟨2, "buy", 10000, 10, 3⟩ [⟨1, "buy", 10000, 10, 5⟩] (by decide)
      ⟨1, "buy", 10000, 10, 5⟩ (by decide) (by decide)
  · exact c6_time_priority.2.2.1 ⟨3, "buy", 10000, 4, 7⟩ [⟨1, "sell", 10000, 10, 5⟩]
      ⟨1, "sell", 10000, 6, 5⟩ (by simp [matchBuyLoop, pqPop, matchBuyStep])
  · exact c6_time_priority.2.2.2 ⟨3, "sell", 10000, 4, 7⟩ [⟨1, "buy", 10000, 10, 5⟩]
      ⟨1, "buy", 10000, 6, 5⟩ (by simp [matchSellLoop, pqPop, matchSellStep])

/-- C7: The matching loops are total functions of this embedding (they are
defined by well-founded recursion), and the spec's termination measure is
verified: whenever a marketable iteration fires on a book of positive
resting quantities, the opposite side's total resting quantity strictly
decreases, and that total is non-negative. -/
theorem c7_loop_termination_measure :
    (∀ (sells : List Order) (topSell : Order) (rest : List Order) (buy : Order),
      pqPop SellOrderComparator sells = some (topSell, rest) →
      (∀ x ∈ sells, 0 < x.quantity) → 0 < buy.quantity → buy.price ≥ topSell.price →
      totalQty (matchBuyStep topSell (min buy.quantity topSell.quantity) rest)
          < totalQty sells ∧
        0 ≤ totalQty sells) ∧
    (∀ (buys : List Order) (topBuy : Order) (rest : List Order) (sell : Order),
      pqPop BuyOrderComparator buys = some (topBuy, rest) →
      (∀ x ∈ buys, 0 < x.quantity) → 0 < sell.quantity → sell.price ≤ topBuy.price →
      totalQty (matchSellStep topBuy (min sell.quantity topBuy.quantity) rest)
          < totalQty buys ∧
        0 ≤ totalQty buys) := by
  constructor
  · intro sells topSell rest buy hp hpos hq _
    have hpq := pqPop_totalQty SellOrderComparator sells topSell rest hp
    have htop : 0 < topSell.quantity :=
      hpos topSell (pqPop_mem_top SellOrderComparator sells topSell rest hp)
    have hstep := matchBuyStep_total topSell (min buy.quantity topSell.quantity) rest
      (min_le_right _ _)
    have htq : 0 < min buy.quantity topSell.quantity := lt_min hq htop
    exact ⟨by omega, totalQty_nonneg sells hpos⟩
  · intro buys topBuy rest sell hp hpos hq _
    have hpq := pqPop_totalQty BuyOrderComparator buys topBuy rest hp
    have htop : 0 < topBuy.quantity :=
      hpos topBuy (pqPop_mem_top BuyOrderComparator buys topBuy rest hp)
    have hstep := matchSellStep_total topBuy (min sell.quantity topBuy.quantity) rest
      (min_le_right _ _)
    have htq : 0 < min sell.quantity topBuy.quantity := lt_min hq htop
    exact ⟨by omega, totalQty_nonneg buys hpos⟩

theorem c7_witness :
    (totalQty (matchBuyStep ⟨1, "sell", 9900, 100, 1⟩
        (min (⟨2, "buy", 10100, 50, 2⟩ : Order).quantity
          (⟨1, "sell", 9900, 100, 1⟩ : Order).quantity) [])
        < totalQty [(⟨1, "sell", 9900, 100, 1⟩ : Order)] ∧
      0 ≤ totalQty [(⟨1, "sell", 9900, 100, 1⟩ : Order)]) ∧
    (totalQty (matchSellStep ⟨3, "buy", 10000, 100, 1⟩
        (min (⟨4, "sell", 9900, 50, 2⟩ : Order).quantity
          (⟨3, "buy", 10000, 100, 1⟩ : Order).quantity) [])
        < totalQty [(⟨3, "buy", 10000, 100, 1⟩ : Order)] ∧
      0 ≤ totalQty [(⟨3, "buy", 10000, 100, 1⟩ : Order)]) :=
  ⟨c7_loop_termination_measure.1 [⟨1, "sell", 9900, 100, 1⟩] ⟨1, "sell", 9900, 100, 1⟩ []
      ⟨2, "buy", 10100, 50, 2⟩ (by decide) (by decide) (by decide) (by decide),
    c7_loop_termination_measure.2 [⟨3, "buy", 10000, 100, 1⟩] ⟨3, "buy", 10000, 100, 1⟩ []
      ⟨4, "sell", 9900, 50, 2⟩ (by decide) (by decide) (by decide) (by decide)⟩

/-- C8: Conservation of quantity: for every sequence of valid submissions
(side in {"buy","sell"}, positive quantity), on each side, the total
quantity of the submissions admitted by the risk check equals the total
quantity filled by trades plus the total quantity resting in that side's
book. -/
theorem c8_conservation (orders : List Order)
    (hv : ∀ o ∈ orders, (o.type = "buy" ∨ o.type = "sell") ∧ 0 < o.quantity) :
    totalQty (admittedOn "buy" orders)
        = totalTradeQty (runOrders orders emptyBook).2 +
          totalQty (runOrders orders emptyBook).1.buyOrders ∧
    totalQty (admittedOn "sell" orders)
        = totalTradeQty (runOrders orders emptyBook).2 +
          totalQty (runOrders orders emptyBook).1.sellOrders := by
  have h := runOrders_totals orders emptyBook hv
    (fun x hx => absurd hx (List.not_mem_nil x))
    (fun x hx => absurd hx (List.not_mem_nil x))
  have h0b : totalQty emptyBook.buyOrders = 0 := by simp [emptyBook, totalQty]
  have h0s : totalQty emptyBook.sellOrders = 0 := by simp [emptyBook, totalQty]
  obtain ⟨hb, hs⟩ := h
  constructor <;> omega

theorem c8_witness :
    (∀ o ∈ [(⟨1, "sell", 10000, 30, 1⟩ : Order), ⟨2, "buy", 10000, 50, 2⟩],
      (o.type = "buy" ∨ o.type = "sell") ∧ 0 < o.quantity) ∧
    (totalQty (admittedOn "buy" [(⟨1, "sell", 10000, 30, 1⟩ : Order), ⟨2, "buy", 10000, 50, 2⟩])
        = totalTradeQty (runOrders [(⟨1, "sell", 10000, 30, 1⟩ : Order),
            ⟨2, "buy", 10000, 50, 2⟩] emptyBook).2 +
          totalQty (runOrders [(⟨1, "sell", 10000, 30, 1⟩ : Order),
            ⟨2, "buy", 10000, 50, 2⟩] emptyBook).1.buyOrders ∧
      totalQty (admittedOn "sell" [(⟨1, "sell", 10000, 30, 1⟩ : Order), ⟨2, "buy", 10000, 50, 2⟩])
        = totalTradeQty (runOrders [(⟨1, "sell", 10000, 30, 1⟩ : Order),
            ⟨2, "buy", 10000, 50, 2⟩] emptyBook).2 +
          totalQty (runOrders [(⟨1, "sell", 10000, 30, 1⟩ : Order),
            ⟨2, "buy", 10000, 50, 2⟩] emptyBook).1.sellOrders) :=
  ⟨by decide,
    c8_conservation [⟨1, "sell", 10000, 30, 1⟩, ⟨2, "buy", 10000, 50, 2⟩] (by decide)⟩

/-- C9: Frame property: processing an incoming buy never removes or
modifies any order already resting on the bid side — the bid side after the
call is the bid side before, possibly extended by the incoming order's
residual; symmetrically for an incoming sell and the ask side. -/
theorem c9_same_side_frame (o : Order) (book : OrderBook) :
    (∃ added, (processBuyOrder o book).1.buyOrders = book.buyOrders ++ added ∧
      (added = [] ∨ ∃ q, added = [{ o with quantity := q }])) ∧
    (∃ added, (processSellOrder o book).1.sellOrders = book.sellOrders ++ added ∧
      (added = [] ∨ ∃ q, added = [{ o with quantity := q }])) := by
  constructor
  · refine ⟨_, processBuyOrder_buys o book, ?_⟩
    by_cases hres : (matchBuyLoop o book.sellOrders).1 > 0
    · rw [if_pos hres]
      exact Or.inr ⟨_, rfl⟩
    · rw [if_neg hres]
      exact Or.inl rfl
  · refine ⟨_, processSellOrder_sells o book, ?_⟩
    by_cases hres : (matchSellLoop o book.buyOrders).1 > 0
    · rw [if_pos hres]
      exact Or.inr ⟨_, rfl⟩
    · rw [if_neg hres]
      exact Or.inl rfl

/-- C10: An incoming order with non-positive quantity that passes the risk
check is silently dropped: the book is unchanged, no trade is emitted, the
order is not rested, and the outcome is normal processing, not a rejection. -/
theorem c10_nonpositive_dropped (o : Order) (book : OrderBook) (h : o.quantity ≤ 0) :
    processOrder o book = (book, [], ProcessOutcome.processed) := by
  have h1 : ¬o.quantity > 1000 := by omega
  have h2 : ¬o.quantity > 0 := by omega
  rcases processOrder_cases o book with ⟨hgt, _⟩ | ⟨_, _, he⟩ | ⟨_, _, he⟩
  · exact absurd hgt h1
  · rw [he, processBuy_nonpos o book h2]
  · rw [he, processSell_nonpos o book h2]

theorem c10_witness :
    (⟨1, "buy", 10000, 0, 1⟩ : Order).quantity ≤ 0 ∧
    processOrder ⟨1, "buy", 10000, 0, 1⟩ emptyBook = (emptyBook, [], ProcessOutcome.processed) :=
  ⟨by decide, c10_nonpositive_dropped ⟨1, "buy", 10000, 0, 1⟩ emptyBook (by decide)⟩
